import Mathlib

/-!
Shallow embedding of the `bloomfilter` Go package (`bloomfilter.go`) and a
verification of the specification's testable properties against it.

Modelling conventions:
* Go `uint32` values are natural numbers kept below `2^32`; every operation
  that can overflow in Go is followed by `% 2^32` exactly where Go wraps.
* Go `[]byte` values are lists of naturals; a genuine Go byte is `< 256`,
  and conversions `byte(x)` / `uint32(b)` are modelled as `% 256` / `% 2^32`.
* Go `[]uint32` is a list of naturals; out-of-range slice indexing (which
  panics in Go and is unreachable under the filter invariant) is modelled
  by `List.getD _ 0` / `List.set` (which is the identity out of range).
* The `sync.RWMutex` field is not modelled: all operations are sequential
  functions on the filter state.
-/

namespace Bloomfilter

/-- The Go `uint32` modulus. -/
def U32 : ℕ := 4294967296

/-- `fnv_multiply` from the source: `a + a<<1 + a<<4 + a<<7 + a<<8 + a<<24`
computed in `uint32` arithmetic (wraparound modulo `2^32`). -/
def fnv_multiply (a : ℕ) : ℕ :=
  (a + a <<< 1 + a <<< 4 + a <<< 7 + a <<< 8 + a <<< 24) % U32

/-- `fnv_mix` from the source: the final avalanche
`a += a<<13; a ^= a>>7; a += a<<3; a ^= a>>17; a += a<<5; return a & 0xffffffff`,
in `uint32` arithmetic. -/
def fnv_mix (a : ℕ) : ℕ :=
  let a1 := (a + a <<< 13) % U32
  let a2 := a1 ^^^ (a1 >>> 7)
  let a3 := (a2 + a2 <<< 3) % U32
  let a4 := a3 ^^^ (a3 >>> 17)
  let a5 := (a4 + a4 <<< 5) % U32
  a5 &&& 0xffffffff

/-- The body of the per-byte loop of `fnv_1a`:
`c := uint32(b); d := c & 0xff00; if d != 0 { a = fnv_multiply(a ^ d>>8) };
a = fnv_multiply(a ^ c&0xff)`. -/
def fnv_step (a b : ℕ) : ℕ :=
  let c := b % U32
  let d := c &&& 0xff00
  let a' := if d ≠ 0 then fnv_multiply (a ^^^ (d >>> 8)) else a
  fnv_multiply (a' ^^^ (c &&& 0xff))

/-- `fnv_1a` from the source: seeded offset basis `2166136261 ^ seed`
(taken `uint32`), the per-byte loop, then the final `fnv_mix`. -/
def fnv_1a (v : List ℕ) (seed : ℕ) : ℕ :=
  fnv_mix (v.foldl fnv_step ((2166136261 ^^^ seed) % U32))

/-- Variant of `fnv_1a` with the dead `d != 0` branch removed, exactly as the
spec says an implementer may simplify it (section 4.2 / design notes). -/
def fnv_1a_nobranch (v : List ℕ) (seed : ℕ) : ℕ :=
  fnv_mix (v.foldl (fun a b => fnv_multiply (a ^^^ ((b % U32) &&& 0xff)))
    ((2166136261 ^^^ seed) % U32))

/-- The `BloomFilter` struct: `m` (uint32 bit count), `k` (hash count) and
the `buckets` word slice. The lock is not modelled. -/
structure BloomFilter where
  m : ℕ
  k : ℕ
  buckets : List ℕ
deriving DecidableEq

/-- `New` from the source: `n := uint32(math.Ceil(float64(m)/32))`, bit count
`n*32` (a `uint32` product), and `n` zero words. For `m < 2^53` the float
computation is exact, so the ceiling is `(m + 31) / 32` in `ℕ`. -/
def New (m k : ℕ) : BloomFilter :=
  let n := (m + 31) / 32
  ⟨n * 32 % U32, k, List.replicate n 0⟩

/-- The word-decoding loop of `NewFromBytes`: every group of four bytes
becomes one word via `binary.BigEndian.Uint32`
(`b0<<24 | b1<<16 | b2<<8 | b3`); a trailing group of fewer than four bytes
is dropped, because the slice is sized `len(bb)/4`. -/
def bytesToWords : List ℕ → List ℕ
  | b0 :: b1 :: b2 :: b3 :: rest =>
      ((b0 % 256) <<< 24 ||| (b1 % 256) <<< 16 ||| (b2 % 256) <<< 8 ||| b3 % 256)
        :: bytesToWords rest
  | _ => []

/-- `NewFromBytes` from the source: decode `len(bb)/4` big-endian words,
bit count `uint32(len(ii) * 32)`. -/
def NewFromBytes (bb : List ℕ) (k : ℕ) : BloomFilter :=
  let ii := bytesToWords bb
  ⟨ii.length * 32 % U32, k, ii⟩

/-- The loop of `locations`: `r[i] = x; x = (x + b) % bf.m` where `x + b`
is a `uint32` sum (wraps modulo `2^32`) before the `% m`. -/
def locGo (b m : ℕ) : ℕ → ℕ → List ℕ
  | _x, 0 => []
  | x, Nat.succ k => x :: locGo b m ((x + b) % U32 % m) k

/-- `locations` from the source: `a = fnv_1a(v, 0)`, `b = fnv_1a(v, 1576284489)`,
`x = a % m`, then the loop emitting `k` offsets. -/
def BloomFilter.locations (bf : BloomFilter) (v : List ℕ) : List ℕ :=
  locGo (fnv_1a v 1576284489) bf.m (fnv_1a v 0 % bf.m) bf.k

/-- The position recurrence exactly as the spec (section 4.3) words it:
`x0 = hashA mod m`, `x_{i+1} = (x_i + hashB) mod m`, the modulus taken as
the mathematical remainder (no intermediate `2^32` wrap). -/
def specLocGo (b m : ℕ) : ℕ → ℕ → List ℕ
  | _x, 0 => []
  | x, Nat.succ k => x :: specLocGo b m ((x + b) % m) k

/-- The spec's position generator: `k` offsets from the mathematical
double-hashing recurrence over `hashA = fnv_1a v 0`,
`hashB = fnv_1a v 1576284489`. -/
def specLocations (v : List ℕ) (k m : ℕ) : List ℕ :=
  specLocGo (fnv_1a v 1576284489) m (fnv_1a v 0 % m) k

/-- The amended position generator: as `specLocations`, but the sum
`x + hashB` wraps modulo `2^32` (it is a `uint32` sum) before `mod m`. -/
def specLocationsWrapped (v : List ℕ) (k m : ℕ) : List ℕ :=
  locGo (fnv_1a v 1576284489) m (fnv_1a v 0 % m) k

/-- The bit test/set position used by `Add` and `Test`: bit `l % 32` of word
`l / 32`. `bitGet bs l` is true when that bit is set. -/
def bitGet (bs : List ℕ) (l : ℕ) : Bool :=
  bs.getD (l / 32) 0 &&& 1 <<< (l % 32) != 0

/-- One iteration of the `Add` loop:
`bf.buckets[l/32] |= 1 << (l % 32)`. -/
def setLoc (bs : List ℕ) (l : ℕ) : List ℕ :=
  bs.set (l / 32) (bs.getD (l / 32) 0 ||| 1 <<< (l % 32))

/-- `Add` from the source: set the bit for every computed location. -/
def BloomFilter.Add (bf : BloomFilter) (v : List ℕ) : BloomFilter :=
  { bf with buckets := (bf.locations v).foldl setLoc bf.buckets }

/-- `Test` from the source: true iff every computed location's bit is set
(the Go loop returns `false` on the first unset bit). -/
def BloomFilter.Test (bf : BloomFilter) (v : List ℕ) : Bool :=
  (bf.locations v).all (bitGet bf.buckets)

/-- Big-endian serialization of one word (`binary.BigEndian.PutUint32`):
`byte(w>>24), byte(w>>16), byte(w>>8), byte(w)`. -/
def serializeWord (w : ℕ) : List ℕ :=
  [w >>> 24 % 256, w >>> 16 % 256, w >>> 8 % 256, w % 256]

/-- `ToBytes` from the source: start from the empty slice and append the
four big-endian bytes of each word in order. -/
def BloomFilter.ToBytes (bf : BloomFilter) : List ℕ :=
  bf.buckets.foldl (fun bb w => bb ++ serializeWord w) []

/-- Folding `Add` over a list of values (a sequence of `Add` calls). -/
def addAll (bf : BloomFilter) (vs : List (List ℕ)) : BloomFilter :=
  vs.foldl BloomFilter.Add bf

lemma bytesToWords_of_short (bb : List ℕ) (hlen : bb.length < 4) :
    bytesToWords bb = [] := by
  match bb, hlen with
  | [], _ => rfl
  | [_], _ => rfl
  | [_, _], _ => rfl
  | [_, _, _], _ => rfl

lemma no_four_cons_short (bb : List ℕ)
    (h : ∀ (b0 b1 b2 b3 : ℕ) (rest : List ℕ), bb = b0 :: b1 :: b2 :: b3 :: rest → False) :
    bb.length < 4 := by
  match bb with
  | [] => simp
  | [_] => simp
  | [_, _] => simp
  | [_, _, _] => simp
  | b0 :: b1 :: b2 :: b3 :: rest => exact absurd rfl (h b0 b1 b2 b3 rest)

lemma bytesToWords_length (bb : List ℕ) :
    (bytesToWords bb).length = bb.length / 4 := by
  induction bb using bytesToWords.induct with
  | case1 b0 b1 b2 b3 rest ih =>
      simp only [bytesToWords, List.length_cons, ih]
      omega
  | case2 bb h =>
      have hlen : bb.length < 4 := no_four_cons_short bb h
      rw [bytesToWords_of_short bb hlen, Nat.div_eq_of_lt hlen]
      rfl

lemma bytesToWords_take (bb : List ℕ) :
    bytesToWords (bb.take (4 * (bb.length / 4))) = bytesToWords bb := by
  induction bb using bytesToWords.induct with
  | case1 b0 b1 b2 b3 rest ih =>
      have hq : (b0 :: b1 :: b2 :: b3 :: rest).length / 4 = rest.length / 4 + 1 := by
        simp only [List.length_cons]; omega
      rw [hq]
      have h4 : 4 * (rest.length / 4 + 1) = (4 * (rest.length / 4)) + 4 := by omega
      rw [h4]
      simp only [List.take_succ_cons, bytesToWords]
      rw [ih]
  | case2 bb h =>
      have hlen : bb.length < 4 := no_four_cons_short bb h
      rw [Nat.div_eq_of_lt hlen, bytesToWords_of_short bb hlen]
      exact bytesToWords_of_short _ (by simp)

lemma foldl_serialize_length (L : List ℕ) (init : List ℕ) :
    (L.foldl (fun bb w => bb ++ serializeWord w) init).length
      = init.length + 4 * L.length := by
  induction L generalizing init with
  | nil => simp
  | cons w L ih =>
      rw [List.foldl_cons, ih]
      simp only [List.length_append, serializeWord, List.length_cons, List.length_nil]
      omega

lemma foldl_setLoc_length (L : List ℕ) (bs : List ℕ) :
    (L.foldl setLoc bs).length = bs.length := by
  induction L generalizing bs with
  | nil => rfl
  | cons l L ih => simp only [List.foldl_cons, ih, setLoc, List.length_set]

lemma locGo_mem_lt {b m : ℕ} (hm : 0 < m) :
    ∀ (k x : ℕ), x < m → ∀ l ∈ locGo b m x k, l < m := by
  intro k
  induction k with
  | zero => intro x _ l hl; simp [locGo] at hl
  | succ k ih =>
      intro x hx l hl
      simp only [locGo, List.mem_cons] at hl
      rcases hl with rfl | hl
      · exact hx
      · exact ih _ (Nat.mod_lt _ hm) l hl

/-- C7: the sizing constructor rounds the requested bit count up to the next
multiple of 32: `New(33,k)` has bit count 64, `New(32,k)` has 32, and
`New(1,k)` has 32, for every hash count `k`. -/
theorem new_rounds_bitcount_up (k : ℕ) :
    (New 33 k).m = 64 ∧ (New 32 k).m = 32 ∧ (New 1 k).m = 32 :=
  ⟨rfl, rfl, rfl⟩

/-- C9: `NewFromBytes` on a byte sequence whose length is not a multiple of 4
silently drops the trailing partial word: it always allocates `len/4` words
(integer division) and returns the same filter as on the truncated input,
signalling no error. -/
theorem newFromBytes_truncates_partial_word (bb : List ℕ) (k : ℕ) :
    (NewFromBytes bb k).buckets.length = bb.length / 4 ∧
    NewFromBytes bb k = NewFromBytes (bb.take (4 * (bb.length / 4))) k := by
  constructor
  · exact bytesToWords_length bb
  · simp only [NewFromBytes, bytesToWords_take]

/-- C5 counterexample: the filter built by `NewFromBytes` from the empty byte
sequence has bit count 0, which is not positive, refuting the claim that
every constructed filter has a positive bit count. -/
theorem newFromBytes_empty_bitcount_zero :
    (NewFromBytes [] 3).m = 0 ∧ ¬ 0 < (NewFromBytes [] 3).m := by
  exact ⟨rfl, by decide⟩

/-- C5 amended: for `New` with requested bit count in `(0, 2^32 - 32]` and for
`NewFromBytes` with byte length in `[4, 2^29)`, the bit count is a positive
multiple of 32 equal to `32 * wordCount`; and `Add` (the only mutating
operation) preserves the bit count, the hash count and the word count. -/
theorem bitcount_invariant_amended :
    (∀ m k : ℕ, 0 < m → m ≤ 4294967264 →
      (New m k).m = 32 * (New m k).buckets.length ∧
      0 < (New m k).m ∧ 32 ∣ (New m k).m) ∧
    (∀ (bb : List ℕ) (k : ℕ), 4 ≤ bb.length → bb.length < 536870912 →
      (NewFromBytes bb k).m = 32 * (NewFromBytes bb k).buckets.length ∧
      0 < (NewFromBytes bb k).m ∧ 32 ∣ (NewFromBytes bb k).m) ∧
    (∀ (bf : BloomFilter) (v : List ℕ),
      (bf.Add v).m = bf.m ∧ (bf.Add v).k = bf.k ∧
      (bf.Add v).buckets.length = bf.buckets.length) := by
  have hU : U32 = 4294967296 := rfl
  refine ⟨?_, ?_, ?_⟩
  · intro m k hm hub
    have hlt : (m + 31) / 32 * 32 < U32 := by omega
    have hm_eq : (New m k).m = (m + 31) / 32 * 32 := Nat.mod_eq_of_lt hlt
    have hbk : (New m k).buckets.length = (m + 31) / 32 := List.length_replicate _ _
    refine ⟨?_, ?_, ?_⟩
    · rw [hm_eq, hbk]; ring
    · rw [hm_eq]; omega
    · rw [hm_eq]; exact dvd_mul_left 32 _
  · intro bb k hlb hub
    have hlen : (bytesToWords bb).length = bb.length / 4 := bytesToWords_length bb
    have hlt : (bytesToWords bb).length * 32 < U32 := by omega
    have hm_eq : (NewFromBytes bb k).m = (bytesToWords bb).length * 32 :=
      Nat.mod_eq_of_lt hlt
    have hbk : (NewFromBytes bb k).buckets.length = (bytesToWords bb).length := rfl
    refine ⟨?_, ?_, ?_⟩
    · rw [hm_eq, hbk]; ring
    · rw [hm_eq]; omega
    · rw [hm_eq]; exact dvd_mul_left 32 _
  · intro bf v
    exact ⟨rfl, rfl, foldl_setLoc_length _ _⟩

/-- C5 amended, witnessed at concrete inputs: `New 33 5`, `NewFromBytes` on
eight bytes, and `Add` on a concrete filter all satisfy the invariant. -/
theorem bitcount_invariant_amended_witness :
    ((New 33 5).m = 32 * (New 33 5).buckets.length ∧
      0 < (New 33 5).m ∧ 32 ∣ (New 33 5).m) ∧
    ((NewFromBytes [1, 2, 3, 4, 5, 6, 7, 8] 2).m
        = 32 * (NewFromBytes [1, 2, 3, 4, 5, 6, 7, 8] 2).buckets.length ∧
      0 < (NewFromBytes [1, 2, 3, 4, 5, 6, 7, 8] 2).m ∧
      32 ∣ (NewFromBytes [1, 2, 3, 4, 5, 6, 7, 8] 2).m) ∧
    (((New 33 5).Add [9]).m = (New 33 5).m ∧
      ((New 33 5).Add [9]).k = (New 33 5).k ∧
      ((New 33 5).Add [9]).buckets.length = (New 33 5).buckets.length) :=
  ⟨bitcount_invariant_amended.1 33 5 (by decide) (by decide),
   bitcount_invariant_amended.2.1 [1, 2, 3, 4, 5, 6, 7, 8] 2 (by decide) (by decide),
   bitcount_invariant_amended.2.2 (New 33 5) [9]⟩

/-- C3 counterexample: for the filter `New 32 3` (bit count 32, one word),
`ToBytes` returns 4 bytes, not `bitCount / 4 = 8` bytes, refuting the claimed
length. -/
theorem toBytes_length_ne_bitcount_div_four :
    ¬ ((New 32 3).ToBytes.length = (New 32 3).m / 4) := by decide

/-- C3 amended: `ToBytes` returns a byte sequence of length
`4 * wordCount`, which equals `bitCount / 8` (not `bitCount / 4`) for every
filter whose bit count satisfies the invariant `bitCount = 32 * wordCount`. -/
theorem toBytes_length_eq_bitcount_div_eight (bf : BloomFilter)
    (hm : bf.m = 32 * bf.buckets.length) :
    bf.ToBytes.length = 4 * bf.buckets.length ∧ bf.ToBytes.length = bf.m / 8 := by
  have h : bf.ToBytes.length = 4 * bf.buckets.length := by
    have hfold := foldl_serialize_length bf.buckets []
    simpa [BloomFilter.ToBytes] using hfold
  exact ⟨h, by rw [h, hm]; omega⟩

/-- C3 amended, witnessed on the concrete filter `New 32 3`. -/
theorem toBytes_length_eq_bitcount_div_eight_witness :
    (New 32 3).ToBytes.length = 4 * (New 32 3).buckets.length ∧
    (New 32 3).ToBytes.length = (New 32 3).m / 8 :=
  toBytes_length_eq_bitcount_div_eight (New 32 3) (by decide)

/-- C4 counterexample: with bit count `m = 4294967264` (a positive multiple
of 32), hash count 2 and input `[0]`, the second emitted position differs from
the spec's mathematical recurrence `x1 = (x0 + hashB) mod m`, because the
`uint32` sum `x0 + hashB` wraps modulo `2^32` before the `mod m`. -/
theorem locations_differ_from_spec_recurrence :
    BloomFilter.locations ⟨4294967264, 2, []⟩ [0] ≠ specLocations [0] 2 4294967264 := by
  decide

/-- C4 amended: for every byte sequence, hash count and positive bit count,
the generated positions follow the recurrence `x0 = hashA mod m`,
`x_{i+1} = ((x_i + hashB) mod 2^32) mod m` (the sum is a `uint32` sum that
wraps before reduction), and every emitted offset lies in `[0, m)`. -/
theorem locations_match_wrapped_recurrence (m k : ℕ) (bs v : List ℕ)
    (hm : 0 < m) :
    BloomFilter.locations ⟨m, k, bs⟩ v = specLocationsWrapped v k m ∧
    (BloomFilter.locations ⟨m, k, bs⟩ v).all (fun l => decide (l < m)) = true := by
  refine ⟨rfl, ?_⟩
  rw [List.all_eq_true]
  intro l hl
  rw [decide_eq_true_eq]
  exact locGo_mem_lt hm k _ (Nat.mod_lt _ hm) l hl

/-- C4 amended, witnessed at bit count 32, hash count 2, input `[0]`. -/
theorem locations_match_wrapped_recurrence_witness :
    BloomFilter.locations ⟨32, 2, []⟩ [0] = specLocationsWrapped [0] 2 32 ∧
    (BloomFilter.locations ⟨32, 2, []⟩ [0]).all (fun l => decide (l < 32)) = true :=
  locations_match_wrapped_recurrence 32 2 [] [0] (by decide)

lemma one_shiftLeft_eq (j : ℕ) : (1 <<< j : ℕ) = 2 ^ j := by
  rw [Nat.shiftLeft_eq, one_mul]

lemma and_two_pow_ne_zero_iff (w j : ℕ) : w &&& 2 ^ j ≠ 0 ↔ w.testBit j = true := by
  rw [Nat.and_two_pow]
  cases h : w.testBit j <;> simp

lemma bitGet_true_iff (bs : List ℕ) (l : ℕ) :
    bitGet bs l = true ↔ (bs.getD (l / 32) 0).testBit (l % 32) = true := by
  simp only [bitGet, one_shiftLeft_eq, bne_iff_ne]
  exact and_two_pow_ne_zero_iff _ _

lemma getD_set_ne (bs : List ℕ) (i j v : ℕ) (h : i ≠ j) :
    (bs.set i v).getD j 0 = bs.getD j 0 := by
  simp [List.getD_eq_getElem?_getD, List.getElem?_set, h]

lemma getD_set_eq (bs : List ℕ) (i v : ℕ) (h : i < bs.length) :
    (bs.set i v).getD i 0 = v := by
  simp [List.getD_eq_getElem?_getD, List.getElem?_set, h]

lemma bitGet_setLoc_mono (bs : List ℕ) (l l' : ℕ) (h : bitGet bs l' = true) :
    bitGet (setLoc bs l) l' = true := by
  rw [bitGet_true_iff] at h ⊢
  rcases eq_or_ne (l / 32) (l' / 32) with heq | hne
  · by_cases hlt : l / 32 < bs.length
    · rw [setLoc, ← heq, getD_set_eq _ _ _ hlt, one_shiftLeft_eq, Nat.testBit_or]
      rw [← heq] at h
      rw [Bool.or_eq_true]
      exact Or.inl h
    · rw [setLoc, List.set_eq_of_length_le (Nat.le_of_not_lt hlt)]
      exact h
  · rw [setLoc, getD_set_ne _ _ _ _ hne]
    exact h

lemma bitGet_setLoc_self (bs : List ℕ) (l : ℕ) (h : l / 32 < bs.length) :
    bitGet (setLoc bs l) l = true := by
  rw [bitGet_true_iff, setLoc, getD_set_eq _ _ _ h, one_shiftLeft_eq,
    Nat.testBit_or, Nat.testBit_two_pow]
  simp

lemma bitGet_foldl_setLoc_mono (L : List ℕ) (bs : List ℕ) (l' : ℕ)
    (h : bitGet bs l' = true) : bitGet (L.foldl setLoc bs) l' = true := by
  induction L generalizing bs with
  | nil => exact h
  | cons l L ih => exact ih _ (bitGet_setLoc_mono _ _ _ h)

lemma bitGet_foldl_setLoc_sets (L : List ℕ) (bs : List ℕ) (l : ℕ)
    (hmem : l ∈ L) (hrange : l / 32 < bs.length) :
    bitGet (L.foldl setLoc bs) l = true := by
  induction L generalizing bs with
  | nil => cases hmem
  | cons a L ih =>
      rcases List.mem_cons.mp hmem with rfl | hmem'
      · exact bitGet_foldl_setLoc_mono L _ _ (bitGet_setLoc_self bs l hrange)
      · refine ih _ hmem' ?_
        show l / 32 < (setLoc bs a).length
        rw [setLoc, List.length_set]
        exact hrange

lemma locations_congr (f g : BloomFilter) (v : List ℕ)
    (hm : f.m = g.m) (hk : f.k = g.k) : f.locations v = g.locations v := by
  simp [BloomFilter.locations, hm, hk]

lemma locations_mem_lt (f : BloomFilter) (v : List ℕ) (hm : 0 < f.m) :
    ∀ l ∈ f.locations v, l < f.m :=
  locGo_mem_lt hm f.k _ (Nat.mod_lt _ hm)

lemma add_m_eq (f : BloomFilter) (v : List ℕ) : (f.Add v).m = f.m := rfl

lemma add_k_eq (f : BloomFilter) (v : List ℕ) : (f.Add v).k = f.k := rfl

lemma add_length_eq (f : BloomFilter) (v : List ℕ) :
    (f.Add v).buckets.length = f.buckets.length :=
  foldl_setLoc_length _ _

lemma add_buckets_mono (f : BloomFilter) (w : List ℕ) (l : ℕ)
    (h : bitGet f.buckets l = true) : bitGet (f.Add w).buckets l = true :=
  bitGet_foldl_setLoc_mono _ _ _ h

lemma test_true_iff (f : BloomFilter) (v : List ℕ) :
    f.Test v = true ↔ ∀ l ∈ f.locations v, bitGet f.buckets l = true :=
  List.all_eq_true

lemma addAll_state (v : List ℕ) (f : BloomFilter) :
    ∀ (ws : List (List ℕ)) (g : BloomFilter), g.m = f.m → g.k = f.k →
      (∀ l ∈ f.locations v, bitGet g.buckets l = true) →
      (addAll g ws).m = f.m ∧ (addAll g ws).k = f.k ∧
        ∀ l ∈ f.locations v, bitGet (addAll g ws).buckets l = true := by
  intro ws
  induction ws with
  | nil => intro g h1 h2 h4; exact ⟨h1, h2, h4⟩
  | cons w ws ih =>
      intro g h1 h2 h4
      exact ih (g.Add w) h1 h2 (fun l hl => add_buckets_mono g w l (h4 l hl))

/-- C1: no false negatives. For every filter state with positive bit count,
positive hash count and the word-count invariant, after `Add v` the filter
answers `Test v = true`, no matter which other values are added afterwards
(and the arbitrary starting state covers any values added before). -/
theorem no_false_negatives (f : BloomFilter) (v : List ℕ) (ws : List (List ℕ))
    (hinv : f.m = 32 * f.buckets.length) (hm : 0 < f.m) (hk : 0 < f.k) :
    (addAll (f.Add v) ws).Test v = true := by
  have hrange : ∀ l ∈ f.locations v, l / 32 < f.buckets.length := by
    intro l hl
    have hlt := locations_mem_lt f v hm l hl
    omega
  have hset : ∀ l ∈ f.locations v, bitGet (f.Add v).buckets l = true := by
    intro l hl
    exact bitGet_foldl_setLoc_sets _ _ _ hl (hrange l hl)
  obtain ⟨hm', hk', hbits⟩ :=
    addAll_state v f ws (f.Add v) (add_m_eq f v) (add_k_eq f v) hset
  rw [test_true_iff, locations_congr (addAll (f.Add v) ws) f v hm' hk']
  exact hbits

/-- C1, witnessed concretely: add `[1]` to `New 32 2`, then add `[2]`;
testing `[1]` still answers true. -/
theorem no_false_negatives_witness :
    (addAll ((New 32 2).Add [1]) [[2]]).Test [1] = true :=
  no_false_negatives (New 32 2) [1] [[2]] (by decide) (by decide) (by decide)

lemma or_two_pow_of_testBit (w j : ℕ) (h : w.testBit j = true) :
    w ||| 2 ^ j = w := by
  apply Nat.eq_of_testBit_eq
  intro i
  rw [Nat.testBit_or, Nat.testBit_two_pow]
  by_cases hij : j = i
  · subst hij; simp [h]
  · simp [hij]

lemma set_getD_self (bs : List ℕ) (i : ℕ) (h : i < bs.length) :
    bs.set i (bs.getD i 0) = bs := by
  apply List.ext_getElem?
  intro j
  rw [List.getElem?_set]
  by_cases hij : i = j
  · subst hij
    simp [h, List.getD_eq_getElem?_getD, List.getElem?_eq_getElem h]
  · simp [hij]

lemma setLoc_no_op (bs : List ℕ) (l : ℕ) (h : bitGet bs l = true) :
    setLoc bs l = bs := by
  rw [bitGet_true_iff] at h
  have hlt : l / 32 < bs.length := by
    by_contra hge
    rw [List.getD_eq_getElem?_getD, List.getElem?_eq_none (Nat.le_of_not_lt hge)] at h
    simp [Nat.zero_testBit] at h
  have habs : bs.getD (l / 32) 0 ||| 1 <<< (l % 32) = bs.getD (l / 32) 0 := by
    rw [one_shiftLeft_eq]
    exact or_two_pow_of_testBit _ _ h
  rw [setLoc, habs]
  exact set_getD_self bs _ hlt

lemma foldl_setLoc_fixed (L : List ℕ) (bs : List ℕ)
    (h : ∀ l ∈ L, setLoc bs l = bs) : L.foldl setLoc bs = bs := by
  induction L with
  | nil => rfl
  | cons a L ih =>
      rw [List.foldl_cons, h a (List.mem_cons_self a L)]
      exact ih (fun l hl => h l (List.mem_cons_of_mem a hl))

lemma BloomFilter.ext' (a b : BloomFilter) (h1 : a.m = b.m) (h2 : a.k = b.k)
    (h3 : a.buckets = b.buckets) : a = b := by
  cases a
  cases b
  simp only [BloomFilter.mk.injEq]
  exact ⟨h1, h2, h3⟩

/-- C6: `Add` is idempotent (adding the same value twice yields exactly the
state of adding it once) and monotone (no `Add` of any value `w` ever clears
any set bit `l`, stated as a `Bool` inequality), for every filter state with
positive bit count. -/
theorem add_idempotent_and_monotone (f : BloomFilter) (v w : List ℕ) (l : ℕ)
    (hm : 0 < f.m) :
    (f.Add v).Add v = f.Add v ∧
    bitGet f.buckets l ≤ bitGet (f.Add w).buckets l := by
  refine ⟨?_, ?_⟩
  case refine_2 =>
    cases h : bitGet f.buckets l
    · exact Bool.false_le _
    · rw [add_buckets_mono f w l h]
  refine BloomFilter.ext' _ _ rfl rfl ?_
  show ((f.Add v).locations v).foldl setLoc (f.Add v).buckets = (f.Add v).buckets
  rw [locations_congr (f.Add v) f v rfl rfl]
  apply foldl_setLoc_fixed
  intro l hl
  by_cases hrange : l / 32 < f.buckets.length
  · exact setLoc_no_op _ _ (bitGet_foldl_setLoc_sets _ _ _ hl hrange)
  · show ((f.Add v).buckets.set (l / 32) _) = (f.Add v).buckets
    apply List.set_eq_of_length_le
    rw [add_length_eq]
    exact Nat.le_of_not_lt hrange

/-- C6, witnessed concretely on `New 32 2` with values `[5]`, `[6]` and bit
position 3. -/
theorem add_idempotent_and_monotone_witness :
    ((New 32 2).Add [5]).Add [5] = (New 32 2).Add [5] ∧
    bitGet (New 32 2).buckets 3 ≤ bitGet ((New 32 2).Add [6]).buckets 3 :=
  add_idempotent_and_monotone (New 32 2) [5] [6] 3 (by decide)

lemma lor_eq_add_of_dvd (a b k : ℕ) (ha : 2 ^ k ∣ a) (hb : b < 2 ^ k) :
    a ||| b = a + b := by
  obtain ⟨c, rfl⟩ := ha
  apply Nat.eq_of_testBit_eq
  intro j
  rw [Nat.testBit_or, Nat.testBit_mul_pow_two_add c hb j, mul_comm (2 ^ k) c,
    ← Nat.shiftLeft_eq, Nat.testBit_shiftLeft]
  by_cases hjk : j < k
  · have : ¬ j ≥ k := by omega
    simp [hjk, this]
  · have hbj : b.testBit j = false :=
      Nat.testBit_lt_two_pow (Nat.lt_of_lt_of_le hb (Nat.pow_le_pow_right (by norm_num) (by omega)))
    have : j ≥ k := by omega
    simp [hjk, this, hbj]

lemma word_roundtrip (w : ℕ) (hw : w < U32) :
    (w >>> 24 % 256 % 256) <<< 24 ||| (w >>> 16 % 256 % 256) <<< 16
      ||| (w >>> 8 % 256 % 256) <<< 8 ||| w % 256 % 256 = w := by
  have hU : U32 = 4294967296 := rfl
  rw [Nat.shiftRight_eq_div_pow, Nat.shiftRight_eq_div_pow, Nat.shiftRight_eq_div_pow,
    Nat.shiftLeft_eq, Nat.shiftLeft_eq, Nat.shiftLeft_eq]
  have p24 : (2 : ℕ) ^ 24 = 16777216 := by norm_num
  have p16 : (2 : ℕ) ^ 16 = 65536 := by norm_num
  have p8 : (2 : ℕ) ^ 8 = 256 := by norm_num
  have h1 : w / 2 ^ 24 % 256 % 256 * 2 ^ 24 ||| w / 2 ^ 16 % 256 % 256 * 2 ^ 16
      = w / 2 ^ 24 % 256 % 256 * 2 ^ 24 + w / 2 ^ 16 % 256 % 256 * 2 ^ 16 := by
    refine lor_eq_add_of_dvd _ _ 24 (dvd_mul_left _ _) ?_
    have hb : w / 2 ^ 16 % 256 % 256 < 256 := by omega
    rw [p16, p24]
    omega
  rw [h1]
  have h2 : w / 2 ^ 24 % 256 % 256 * 2 ^ 24 + w / 2 ^ 16 % 256 % 256 * 2 ^ 16
        ||| w / 2 ^ 8 % 256 % 256 * 2 ^ 8
      = w / 2 ^ 24 % 256 % 256 * 2 ^ 24 + w / 2 ^ 16 % 256 % 256 * 2 ^ 16
        + w / 2 ^ 8 % 256 % 256 * 2 ^ 8 := by
    refine lor_eq_add_of_dvd _ _ 16
      (dvd_add (((pow_dvd_pow 2 (by norm_num)).mul_left _)) (dvd_mul_left _ _)) ?_
    have hb : w / 2 ^ 8 % 256 % 256 < 256 := by omega
    rw [p8, p16]
    omega
  rw [h2]
  have h3 : w / 2 ^ 24 % 256 % 256 * 2 ^ 24 + w / 2 ^ 16 % 256 % 256 * 2 ^ 16
        + w / 2 ^ 8 % 256 % 256 * 2 ^ 8 ||| w % 256 % 256
      = w / 2 ^ 24 % 256 % 256 * 2 ^ 24 + w / 2 ^ 16 % 256 % 256 * 2 ^ 16
        + w / 2 ^ 8 % 256 % 256 * 2 ^ 8 + w % 256 % 256 := by
    refine lor_eq_add_of_dvd _ _ 8
      (dvd_add (dvd_add ((pow_dvd_pow 2 (by norm_num)).mul_left _)
        ((pow_dvd_pow 2 (by norm_num)).mul_left _)) (dvd_mul_left _ _)) ?_
    rw [p8]
    omega
  rw [h3, p24, p16, p8]
  omega

lemma bytesToWords_serialize_cons (w : ℕ) (rest : List ℕ) (hw : w < U32) :
    bytesToWords (serializeWord w ++ rest) = w :: bytesToWords rest := by
  show bytesToWords
      (w >>> 24 % 256 :: w >>> 16 % 256 :: w >>> 8 % 256 :: w % 256 :: rest) = _
  rw [bytesToWords]
  rw [word_roundtrip w hw]

lemma toBytes_foldl_eq (L : List ℕ) (init : List ℕ) :
    L.foldl (fun bb w => bb ++ serializeWord w) init
      = init ++ (L.map serializeWord).flatten := by
  induction L generalizing init with
  | nil => simp
  | cons w L ih =>
      rw [List.foldl_cons, ih]
      simp [List.append_assoc]

lemma bytesToWords_flatten_serialize (L : List ℕ) (hL : ∀ w ∈ L, w < U32) :
    bytesToWords (L.map serializeWord).flatten = L := by
  induction L with
  | nil => rfl
  | cons w L ih =>
      rw [List.map_cons, List.flatten_cons,
        bytesToWords_serialize_cons w _ (hL w (List.mem_cons_self w L))]
      rw [ih (fun u hu => hL u (List.mem_cons_of_mem w hu))]

/-- C2: serialization round trip. For every filter whose fields are genuine
`uint32` data (bit count below `2^32`, every word below `2^32`) and which
satisfies the word-count invariant, `NewFromBytes (f.ToBytes) f.k` rebuilds a
filter equal to `f`, hence observationally equivalent on every `Test` call. -/
theorem serialization_roundtrip (f : BloomFilter) (v : List ℕ)
    (hinv : f.m = 32 * f.buckets.length) (hmlt : f.m < U32)
    (hwords : ∀ w ∈ f.buckets, w < U32) :
    NewFromBytes f.ToBytes f.k = f ∧
    (NewFromBytes f.ToBytes f.k).Test v = f.Test v := by
  have hbytes : bytesToWords f.ToBytes = f.buckets := by
    show bytesToWords (f.buckets.foldl (fun bb w => bb ++ serializeWord w) []) = _
    rw [toBytes_foldl_eq, List.nil_append]
    exact bytesToWords_flatten_serialize _ hwords
  have heq : NewFromBytes f.ToBytes f.k = f := by
    refine BloomFilter.ext' _ _ ?_ rfl ?_
    · show (bytesToWords f.ToBytes).length * 32 % U32 = f.m
      rw [hbytes]
      have hlm : f.buckets.length * 32 = f.m := by omega
      rw [hlm, Nat.mod_eq_of_lt hmlt]
    · exact hbytes
  exact ⟨heq, by rw [heq]⟩

/-- C2, witnessed on the concrete filter decoded from eight bytes, with a
subsequent `Test [9]`. -/
theorem serialization_roundtrip_witness :
    NewFromBytes (NewFromBytes [1, 2, 3, 4, 5, 6, 7, 8] 3).ToBytes
        (NewFromBytes [1, 2, 3, 4, 5, 6, 7, 8] 3).k
      = NewFromBytes [1, 2, 3, 4, 5, 6, 7, 8] 3 ∧
    (NewFromBytes (NewFromBytes [1, 2, 3, 4, 5, 6, 7, 8] 3).ToBytes
        (NewFromBytes [1, 2, 3, 4, 5, 6, 7, 8] 3).k).Test [9]
      = (NewFromBytes [1, 2, 3, 4, 5, 6, 7, 8] 3).Test [9] :=
  serialization_roundtrip (NewFromBytes [1, 2, 3, 4, 5, 6, 7, 8] 3) [9]
    (by decide) (by decide) (by decide)

lemma band_ff00_eq_zero (b : ℕ) (hb : b < 256) : b &&& 0xff00 = 0 := by
  apply Nat.eq_of_testBit_eq
  intro i
  rw [Nat.zero_testBit, Nat.testBit_and]
  have h65280 : (0xff00 : ℕ) = 255 <<< 8 := by decide
  rw [h65280, Nat.testBit_shiftLeft]
  by_cases hi : i < 8
  · have hge : ¬ i ≥ 8 := by omega
    simp [hge]
  · have hbi : b.testBit i = false := by
      apply Nat.testBit_lt_two_pow
      calc b < 256 := hb
        _ = 2 ^ 8 := by norm_num
        _ ≤ 2 ^ i := Nat.pow_le_pow_right (by norm_num) (by omega)
    simp [hbi]

lemma fnv_step_eq_nobranch (a b : ℕ) (hb : b < 256) :
    fnv_step a b = fnv_multiply (a ^^^ ((b % U32) &&& 0xff)) := by
  have hU : U32 = 4294967296 := rfl
  have hmod : b % U32 = b := by rw [hU]; omega
  have hd : b % U32 &&& 0xff00 = 0 := by rw [hmod]; exact band_ff00_eq_zero b hb
  show fnv_multiply
      ((if (b % U32 &&& 0xff00) ≠ 0
        then fnv_multiply (a ^^^ (b % U32 &&& 0xff00) >>> 8)
        else a) ^^^ (b % U32 &&& 0xff))
    = fnv_multiply (a ^^^ (b % U32 &&& 0xff))
  rw [hd]
  simp

lemma foldl_fnv_congr (v : List ℕ) (hv : ∀ b ∈ v, b < 256) :
    ∀ a, v.foldl fnv_step a
      = v.foldl (fun a b => fnv_multiply (a ^^^ ((b % U32) &&& 0xff))) a := by
  induction v with
  | nil => intro a; rw [List.foldl_nil, List.foldl_nil]
  | cons b v ih =>
      intro a
      rw [List.foldl_cons, List.foldl_cons,
        fnv_step_eq_nobranch a b (hv b (List.mem_cons_self b v))]
      exact ih (fun u hu => hv u (List.mem_cons_of_mem b hu)) _

/-- C10: the `d != 0` branch of `fnv_1a` is unreachable for byte inputs,
because `d = uint32(b) & 0xff00` is zero for every `b < 256`; hence `fnv_1a`
coincides with the simplified hash that omits the branch, for every byte
sequence and every seed. -/
theorem fnv_dead_branch_removable (v : List ℕ) (seed : ℕ)
    (hv : ∀ b ∈ v, b < 256) : fnv_1a v seed = fnv_1a_nobranch v seed :=
  congrArg fnv_mix (foldl_fnv_congr v hv _)

/-- C10, witnessed on the byte sequence of the string "foo" with seed 0. -/
theorem fnv_dead_branch_removable_witness :
    fnv_1a [102, 111, 111] 0 = fnv_1a_nobranch [102, 111, 111] 0 :=
  fnv_dead_branch_removable [102, 111, 111] 0 (by decide)

/-- `EstimateParameters` from the source, with `float64` arithmetic idealized
as real arithmetic:
`m = ceil(-1 * n * log p / (log 2)^2)`, then `k = ceil(log 2 * m / n)` from
that pre-rounding `m`, then `m` is rounded up to a multiple of 32
(`if m % 32 > 0 { m += 32 - m % 32 }`). On the valid domain (`n > 0`,
`0 < p < 1`) the intermediate `m` is positive, so `Int.emod` agrees with
Go's truncated `%`. -/
noncomputable def EstimateParameters (n : ℕ) (p : ℝ) : ℤ × ℤ :=
  let m0 : ℤ := ⌈-1 * (n : ℝ) * Real.log p / Real.log 2 ^ 2⌉
  let k : ℤ := ⌈Real.log 2 * (m0 : ℝ) / (n : ℝ)⌉
  (if m0 % 32 > 0 then m0 + (32 - m0 % 32) else m0, k)

/-- C8: `EstimateParameters` computes `k` from the pre-rounding intermediate
`m` and only afterwards rounds `m` up; for every `n > 0` and `p ∈ (0,1)` the
returned `m` is a positive multiple of 32 and `k ≥ 1` (so in particular at
`n = 1000`, `p = 0.01`). -/
theorem estimateParameters_props (n : ℕ) (p : ℝ)
    (hn : 0 < n) (hp0 : 0 < p) (hp1 : p < 1) :
    (EstimateParameters n p).2
      = ⌈Real.log 2 *
          ((⌈-1 * (n : ℝ) * Real.log p / Real.log 2 ^ 2⌉ : ℤ) : ℝ) / (n : ℝ)⌉ ∧
    32 ∣ (EstimateParameters n p).1 ∧
    0 < (EstimateParameters n p).1 ∧
    1 ≤ (EstimateParameters n p).2 := by
  have hnpos : (0 : ℝ) < n := by exact_mod_cast hn
  have hlogp : Real.log p < 0 := Real.log_neg hp0 hp1
  have hlog2 : 0 < Real.log 2 := Real.log_pos (by norm_num)
  have hm0pos : 0 < (⌈-1 * (n : ℝ) * Real.log p / Real.log 2 ^ 2⌉ : ℤ) := by
    rw [Int.ceil_pos]
    apply div_pos (by nlinarith) (pow_pos hlog2 2)
  have hkpos : 0 <
      (⌈Real.log 2 *
        ((⌈-1 * (n : ℝ) * Real.log p / Real.log 2 ^ 2⌉ : ℤ) : ℝ) / (n : ℝ)⌉ : ℤ) := by
    rw [Int.ceil_pos]
    apply div_pos (mul_pos hlog2 (by exact_mod_cast hm0pos)) hnpos
  have e1 : (EstimateParameters n p).1 =
      if (⌈-1 * (n : ℝ) * Real.log p / Real.log 2 ^ 2⌉ : ℤ) % 32 > 0
      then (⌈-1 * (n : ℝ) * Real.log p / Real.log 2 ^ 2⌉ : ℤ)
            + (32 - (⌈-1 * (n : ℝ) * Real.log p / Real.log 2 ^ 2⌉ : ℤ) % 32)
      else (⌈-1 * (n : ℝ) * Real.log p / Real.log 2 ^ 2⌉ : ℤ) := rfl
  refine ⟨rfl, ?_, ?_, ?_⟩
  · rw [e1]
    split_ifs with h
    · omega
    · omega
  · rw [e1]
    split_ifs with h
    · omega
    · exact hm0pos
  · have e2 : (EstimateParameters n p).2 =
        ⌈Real.log 2 *
          ((⌈-1 * (n : ℝ) * Real.log p / Real.log 2 ^ 2⌉ : ℤ) : ℝ) / (n : ℝ)⌉ := rfl
    rw [e2]
    omega

/-- C8, witnessed at `n = 1000`, `p = 1/100`. -/
theorem estimateParameters_props_witness :
    (EstimateParameters 1000 (1 / 100)).2
      = ⌈Real.log 2 *
          ((⌈-1 * ((1000 : ℕ) : ℝ) * Real.log (1 / 100) / Real.log 2 ^ 2⌉ : ℤ) : ℝ)
          / ((1000 : ℕ) : ℝ)⌉ ∧
    32 ∣ (EstimateParameters 1000 (1 / 100)).1 ∧
    0 < (EstimateParameters 1000 (1 / 100)).1 ∧
    1 ≤ (EstimateParameters 1000 (1 / 100)).2 :=
  estimateParameters_props 1000 (1 / 100) (by norm_num) (by norm_num) (by norm_num)

end Bloomfilter
